import Mathlib

/- Verification development for src/models/PreProcessor.py of the
FractureSegmentation repository.  The Python functions are shallowly embedded
as executable Lean definitions; machine integers (numpy uint16) are modelled
as natural numbers with explicit reduction modulo 2^16, intensity samples as
integers, 3D volumes as index functions with explicit extents, and opaque
external library routines (scipy find_peaks, skimage morphology and labeling)
are modelled from their documented semantics. -/

/-- Constant `MAX_VOXEL_VALUE = 65535` from the source. -/
def MAX_VOXEL_VALUE : Nat := 65535

/-- One voxel of the thresholding step of `SegmentationByTH` (source lines
63-65).  `img = np.copy(self.img_data.astype(dtype=np.uint16))` reduces the
(integer-valued) sample modulo 2^16; then
`img[(img <= Imax) & (img > Imin)] = MAX_VOXEL_VALUE` and finally
`img[img < MAX_VOXEL_VALUE] = 0`.  Note that a cast value already equal to
65535 is untouched by the second masking line. -/
def thresholdVoxel (Imin Imax v : Int) : Nat :=
  let u : Nat := (v % 65536).toNat
  let u1 : Nat := if (u : Int) ≤ Imax ∧ Imin < (u : Int) then MAX_VOXEL_VALUE else u
  if u1 < MAX_VOXEL_VALUE then 0 else u1

/-- A 3D unsigned-16-bit volume: extents plus an index function (only indices
`i < nx`, `j < ny`, `k < nz` are meaningful). -/
structure Vol where
  nx : Nat
  ny : Nat
  nz : Nat
  data : Nat → Nat → Nat → Nat

/-- A 3D integer-valued intensity volume (the raw scan). -/
structure VolI where
  nx : Nat
  ny : Nat
  nz : Nat
  data : Nat → Nat → Nat → Int

/-- Values of the in-bounds cross-shaped (connectivity-1) neighbourhood of a
voxel, centre included.  This is skimage's default footprint for grayscale
`erosion`/`dilation` on a 3D image.  Out-of-bounds neighbours are omitted:
skimage pads with the dtype maximum for erosion and the dtype minimum for
dilation, which are exactly the fold identities used below. -/
def nbrVals (m : Vol) (i j k : Nat) : List Nat :=
  [m.data i j k]
    ++ (if 0 < i then [m.data (i-1) j k] else [])
    ++ (if i+1 < m.nx then [m.data (i+1) j k] else [])
    ++ (if 0 < j then [m.data i (j-1) k] else [])
    ++ (if j+1 < m.ny then [m.data i (j+1) k] else [])
    ++ (if 0 < k then [m.data i j (k-1)] else [])
    ++ (if k+1 < m.nz then [m.data i j (k+1)] else [])

/-- Grayscale erosion with the cross footprint (skimage `erosion`): pointwise
minimum over the neighbourhood, out-of-bounds padded with the uint16 maximum. -/
def erosion (m : Vol) : Vol :=
  ⟨m.nx, m.ny, m.nz, fun i j k => (nbrVals m i j k).foldr min 65535⟩

/-- Grayscale dilation with the cross footprint (skimage `dilation`): pointwise
maximum over the neighbourhood, out-of-bounds padded with the uint16 minimum. -/
def dilation (m : Vol) : Vol :=
  ⟨m.nx, m.ny, m.nz, fun i j k => (nbrVals m i j k).foldr max 0⟩

/-- skimage `opening` = erosion followed by dilation. -/
def opening (m : Vol) : Vol := dilation (erosion m)

/-- skimage `closing` = dilation followed by erosion. -/
def closing (m : Vol) : Vol := erosion (dilation m)

/-- `SegmentationByTH(self, Imin, Imax)` (source lines 53-69): threshold every
voxel, then morphological opening, then closing. -/
def SegmentationByTH (v : VolI) (Imin Imax : Int) : Vol :=
  closing (opening ⟨v.nx, v.ny, v.nz, fun i j k => thresholdVoxel Imin Imax (v.data i j k)⟩)

/-- `find_all_minima(self, connectivity_cmps)` (source lines 179-188):
`np.where((minimas[1:-1] < minimas[0:-2]) * (minimas[1:-1] < minimas[2:]))[0]`.
Position `j` of the sliced arrays corresponds to position `j+1` of the curve,
and `np.where` returns indices into the slice. -/
def find_all_minima (cmps : List Nat) : List Nat :=
  (List.range (cmps.length - 2)).filter
    (fun j => decide (cmps.getD (j+1) 0 < cmps.getD j 0 ∧ cmps.getD (j+1) 0 < cmps.getD (j+2) 0))

/-- Failure conditions of the threshold scan selection step. -/
inductive ScanErr where
  | noThresholdFound
  | missingResult
deriving DecidableEq

/-- The selection step of `SkeletonTHFinder` (source lines 105-109):
`self.find_all_minima(cmps)` followed by
`self.bones = img_threshold_result[self._dips[0]]`.  Indexing `self._dips[0]`
on an empty dips array raises in Python; that failure is the spec's
`NoThresholdFound` condition.  Indexing the result list out of range (which
cannot happen when the two lists have equal length) is `missingResult`. -/
def select_bones {β : Type} (cmps : List Nat) (imgs : List β) : Except ScanErr β :=
  match find_all_minima cmps with
  | [] => Except.error ScanErr.noThresholdFound
  | d :: _ =>
    match imgs.get? d with
    | some b => Except.ok b
    | none => Except.error ScanErr.missingResult

/-- `np.arange(start, stop, step)` for naturals with positive `step`:
`⌈(stop - start) / step⌉` equally spaced values from `start`. -/
def arange (start stop step : Nat) : List Nat :=
  List.range' start ((stop - start + step - 1) / step) step

/-- `_tasks_distribution(self, num_cores)` (source lines 111-116):
`d = ((514 - 150) // self.resolution) // num_cores` and chunk `r` is
`np.arange(150 + r*d*resolution, 150 + r*d*resolution + d*resolution, resolution)`. -/
def tasks_distribution (resolution N : Nat) : List (List Nat) :=
  let d := ((514 - 150) / resolution) / N
  (List.range N).map
    (fun r => arange (150 + r * d * resolution) (150 + r * d * resolution + d * resolution) resolution)

/-- The aggregated component-count curve of `SkeletonTHFinder` (source lines
97-102): each worker `r` maps `do_segmentation` over its chunk (`cnt i` stands
for the component count of `SegmentationByTH(i, Imax)` on the fixed volume),
and the per-worker count lists are concatenated in worker-index order. -/
def component_curve (cnt : Nat → Nat) (resolution N : Nat) : List Nat :=
  ((tasks_distribution resolution N).map (fun chunk => chunk.map cnt)).flatten

/-- The upper-bound refinement loop of `find_suspected_pelvis_loc` (source
lines 147-150): walk consecutive entries of `upper_bounds`; whenever
`upper_bounds[i] / upper_bounds[i+1] > 1.5` replace the running bound with
`upper_bounds[i+1]`.  The entries are slice indices (naturals), and for
naturals `a / b > 1.5` (float division, including the `b = 0` conventions
inf > 1.5 and not nan > 1.5) is exactly `2*a > 3*b`. -/
def refine_upper (ubs : List Nat) : Nat :=
  (ubs.zip ubs.tail).foldl (fun ub p => if 2 * p.1 > 3 * p.2 then p.2 else ub) (ubs.headD 0)

/-- The lower-bound refinement loop of `find_suspected_pelvis_loc` (source
lines 152-155): advance when `lower_bounds[i] / lower_bounds[i+1] < 1.5`,
i.e. `2*a < 3*b` (with the `b = 0` conventions not inf < 1.5, not nan < 1.5,
and 0/0 handled identically). -/
def refine_lower (lbs : List Nat) : Nat :=
  (lbs.zip lbs.tail).foldl (fun lb p => if 2 * p.1 < 3 * p.2 then p.2 else lb) (lbs.headD 0)

/-- Reading of claim C3's words, for comparison with `refine_upper`: advance
the upper bound when the consecutive candidates' DENSITY-PROFILE values have
ratio above 1.5 (`2 * density[a] > 3 * density[b]` for nonnegative profile
values). -/
def refine_upper_by_density (density : List Int) (ubs : List Nat) : Nat :=
  (ubs.zip ubs.tail).foldl
    (fun ub p => if 2 * density.getD p.1 0 > 3 * density.getD p.2 0 then p.2 else ub)
    (ubs.headD 0)

/-- Helper: the second component of the last element of a pair list, or a
default. -/
def lastSnd (l : List (Nat × Nat)) (dflt : Nat) : Nat :=
  match l.getLast? with
  | some p => p.2
  | none => dflt

/-- A 1×1×1 intensity volume whose single sample is 65535. -/
def vol65535 : VolI := ⟨1, 1, 1, fun _ _ _ => 65535⟩

/-- Plateau scan of scipy's `_local_maxima_1d`: starting at `j`, advance while
`j < len - 1` and `x[j] = v`.  Modelled with structural fuel; `fuel ≥ len` is
always enough since `j` only increases and stops at `len - 1`. -/
def plateauEndAux (x : List Int) (v : Int) : Nat → Nat → Nat
  | 0, j => j
  | fuel+1, j => if j < x.length - 1 ∧ x.getD j 0 = v then plateauEndAux x v fuel (j+1) else j

/-- Entry point of the plateau scan with sufficient fuel. -/
def plateauEnd (x : List Int) (v : Int) (j : Nat) : Nat := plateauEndAux x v x.length j

/-- scipy `_local_maxima_1d`: scan `i` over `1 .. len-2`; when
`x[i-1] < x[i]`, find the end `ia` of the equal-valued plateau; if
`x[ia] < x[i]` record the plateau midpoint `(i + (ia-1)) / 2` and resume at
`ia + 1`.  Fueled structural recursion (`i` strictly increases each step, so
`fuel = len` suffices). -/
def localMaximaAux (x : List Int) : Nat → Nat → List Nat
  | 0, _ => []
  | fuel+1, i =>
    if i < x.length - 1 then
      if x.getD (i-1) 0 < x.getD i 0 then
        let ia := plateauEnd x (x.getD i 0) (i+1)
        if x.getD ia 0 < x.getD i 0 then
          ((i + (ia - 1)) / 2) :: localMaximaAux x fuel (ia + 1)
        else localMaximaAux x fuel (i+1)
      else localMaximaAux x fuel (i+1)
    else []

/-- All interior local maxima (plateau midpoints) of a 1D signal, ascending. -/
def localMaxima (x : List Int) : List Nat := localMaximaAux x x.length 1

/-- Insert into a list kept sorted by strictly descending key (stable: equal
keys keep insertion order). -/
def insertDesc {α : Type} (key : α → Int) (a : α) : List α → List α
  | [] => [a]
  | b :: bs => if key a > key b then a :: b :: bs else b :: insertDesc key a bs

/-- Stable insertion sort by descending key; models numpy argsort-based
orderings (`np.argsort(priority)[::-1]` and the reversed `np.argpartition`,
whose tie order is unspecified). -/
def sortDesc {α : Type} (key : α → Int) (l : List α) : List α :=
  l.foldl (fun acc a => insertDesc key a acc) []

/-- Symmetric distance on naturals. -/
def natDist (a b : Nat) : Nat := max a b - min a b

/-- scipy `_select_by_peak_distance`: visit peak positions from highest to
lowest priority; each still-kept peak removes every other peak closer than
`dist` to it.  The peaks list is ascending, so the symmetric distance test
equals scipy's directional scans. -/
def pruneKeep (peaks : List Nat) (priority : List Int) (dist : Nat) : Nat → Bool :=
  (sortDesc (fun j => priority.getD j 0) (List.range peaks.length)).foldl
    (fun keep j =>
      if keep j then
        fun k => if k ≠ j ∧ natDist (peaks.getD k 0) (peaks.getD j 0) < dist then false else keep k
      else keep)
    (fun _ => true)

/-- scipy `find_peaks(x, distance=dist)[0]`: local maxima filtered by the
minimal-distance condition, in ascending index order. -/
def find_peaks (x : List Int) (dist : Nat) : List Nat :=
  let peaks := localMaxima x
  let keep := pruneKeep peaks (peaks.map (fun p => x.getD p 0)) dist
  ((List.range peaks.length).filter (fun j => keep j)).map (fun j => peaks.getD j 0)

/-- Failure modes of `find_suspected_pelvis_loc`: `np.argpartition(v, -2)`
raises when `v` has fewer than two entries, and `np.argwhere(...)[0]` raises
when no candidate lies on the required side of the main peak (the spec's
BoundsNotFoundError). -/
inductive PelvisErr where
  | notEnoughPeaks
  | notEnoughValleys
  | boundsNotFound
deriving DecidableEq

/-- `find_suspected_pelvis_loc(self, density)` (source lines 130-156).
`peaks, _ = find_peaks(density, distance=150)`;
`deeps, _ = find_peaks(density*-1, distance=200)`;
`x1_max` is the highest-density peak
(`peaks[np.argpartition(density[peaks], -2)[-2:][::-1]][0]`, argpartition
modelled as a full stable argsort — a valid instance of its contract);
`minimas = deeps[np.argpartition(-1*density[deeps], -2)[::-1]]` is `deeps`
reordered so the deepest valleys come first;
`lower_bounds = minimas[np.argwhere(minimas < x1_max)[0]]` is the one-element
array holding the first entry of `minimas` below `x1_max` (argwhere's `[0]`
picks the first qualifying position), and symmetrically for `upper_bounds`;
then the two refinement loops run over these (one-element) arrays. -/
def find_suspected_pelvis_loc (density : List Int) : Except PelvisErr (Nat × Nat) :=
  let peaks := find_peaks density 150
  let deeps := find_peaks (density.map (fun v => -v)) 200
  if peaks.length < 2 then Except.error PelvisErr.notEnoughPeaks
  else
    let x1_max := peaks.foldl
      (fun best p => if density.getD best 0 ≤ density.getD p 0 then p else best) (peaks.headD 0)
    if deeps.length < 2 then Except.error PelvisErr.notEnoughValleys
    else
      let minimas := sortDesc (fun m => -(density.getD m 0)) deeps
      match (minimas.filter (fun m => decide (m < x1_max))).head?,
            (minimas.filter (fun m => decide (x1_max < m))).head? with
      | some lb, some ub => Except.ok (refine_lower [lb], refine_upper [ub])
      | _, _ => Except.error PelvisErr.boundsNotFound

/-- Axial slice positions 0 .. 219 of a synthetic density profile with peaks
at 10 and 215 and valleys at 5 and 210 (used to exercise the pelvis locator's
success path). -/
def demoProfile : List Int :=
  (List.range 220).map (fun i =>
    if i ≤ 5 then 20 - 2*(i:Int)
    else if i ≤ 10 then 10 + 20*((i:Int) - 5)
    else if i ≤ 210 then 110 - ((i:Int) - 10)
    else if i ≤ 215 then -90 + 2*((i:Int) - 210)
    else -80 - ((i:Int) - 215))

/-- All grid positions of a volume in lexicographic order. -/
def positions (m : Vol) : List (Nat × Nat × Nat) :=
  (List.range m.nx).flatMap (fun i =>
    (List.range m.ny).flatMap (fun j =>
      (List.range m.nz).map (fun k => (i, j, k))))

/-- Foreground voxel positions (nonzero value), in lexicographic order. -/
def fg (m : Vol) : List (Nat × Nat × Nat) :=
  (positions m).filter (fun p => decide (m.data p.1 p.2.1 p.2.2 ≠ 0))

/-- Number of foreground voxels of a mask. -/
def countFG (m : Vol) : Nat := (fg m).length

/-- 26-neighbourhood adjacency of grid positions (skimage `label`'s default
full connectivity for a 3D image). -/
def Adj (p q : Nat × Nat × Nat) : Prop :=
  p ≠ q ∧ natDist p.1 q.1 ≤ 1 ∧ natDist p.2.1 q.2.1 ≤ 1 ∧ natDist p.2.2 q.2.2 ≤ 1

instance (p q : Nat × Nat × Nat) : Decidable (Adj p q) := by
  unfold Adj; infer_instance

/-- One saturation step of connected-component growth: add every foreground
voxel adjacent to the current set. -/
def expand (m : Vol) (s : List (Nat × Nat × Nat)) : List (Nat × Nat × Nat) :=
  s ++ (fg m).filter (fun q => decide (q ∉ s) && s.any (fun p => decide (Adj p q)))

/-- Iterated saturation. -/
def iterExpand (m : Vol) : Nat → List (Nat × Nat × Nat) → List (Nat × Nat × Nat)
  | 0, s => s
  | n+1, s => expand m (iterExpand m n s)

/-- The connected component of `p` (as a list of positions): saturation for
`|fg|` steps, which always reaches the fixpoint. -/
def comp_closure (m : Vol) (p : Nat × Nat × Nat) : List (Nat × Nat × Nat) :=
  iterExpand m (fg m).length [p]

/-- Canonical representative of `p`'s connected component: the first
foreground voxel (in the fixed lexicographic order) belonging to it. -/
def rep (m : Vol) (p : Nat × Nat × Nat) : Nat × Nat × Nat :=
  ((fg m).filter (fun r => decide (r ∈ comp_closure m p))).headD p

/-- The distinct component representatives. -/
def reps (m : Vol) : List (Nat × Nat × Nat) := ((fg m).map (rep m)).dedup

/-- skimage `label`: background voxels get 0, foreground voxels get the
(1-based) index of their component; voxels share a positive label exactly when
they are in the same 26-connected component. -/
def labelOf (m : Vol) (p : Nat × Nat × Nat) : Nat :=
  if p ∈ fg m then (reps m).indexOf (rep m p) + 1 else 0

/-- Number of voxels carrying a given label. -/
def labelCount (m : Vol) (l : Nat) : Nat :=
  ((fg m).filter (fun p => decide (labelOf m p = l))).length

/-- `np.bincount(labels.flat)[1:]`: per-label voxel counts for labels 1..K. -/
def bincountTail (m : Vol) : List Nat :=
  (List.range (reps m).length).map (fun j => labelCount m (j+1))

/-- `np.argmax(np.bincount(labels.flat)[1:]) + 1` (source line 204):
`np.argmax` returns the first position of the maximum. -/
def selectedLabel (m : Vol) : Nat :=
  (bincountTail m).indexOf ((bincountTail m).foldr max 0) + 1

/-- `largestCC_img = self.bones * largestCC` (source line 205): keep the mask
values on the most populous component, zero elsewhere. -/
def largest_mask (m : Vol) : Vol :=
  ⟨m.nx, m.ny, m.nz, fun i j k =>
    if labelOf m (i, j, k) = selectedLabel m then m.data i j k else 0⟩

/-- Failure mode of largest-component selection: on an all-background mask
`np.bincount(labels.flat)[1:]` is empty and `np.argmax` raises (the spec's
EmptyMaskError). -/
inductive MaskErr where
  | emptyMask
deriving DecidableEq

/-- The largest-component computation of `get_Nlargest_component` (source
lines 203-206): label, select the most populous non-background label, mask to
it, then a morphological closing.  (The subsequent pelvis-ROI crop and the
file save are outside this step.) -/
def get_Nlargest_component (m : Vol) : Except MaskErr Vol :=
  if fg m = [] then Except.error MaskErr.emptyMask
  else Except.ok (closing (largest_mask m))

/-- Mutual reachability of all foreground voxels: the mask has (at most) one
26-connected component. -/
def oneComponent (m : Vol) : Prop :=
  ∀ p ∈ fg m, ∀ q ∈ fg m, q ∈ comp_closure m p

instance (m : Vol) : Decidable (oneComponent m) := by
  unfold oneComponent; infer_instance

/-- Foreground-step relation used to reason about `closure`: a single
adjacency hop between foreground voxels. -/
def stepFG (m : Vol) (p q : Nat × Nat × Nat) : Prop :=
  p ∈ fg m ∧ q ∈ fg m ∧ Adj p q

/-- Reachability through foreground voxels. -/
def Reach (m : Vol) (p q : Nat × Nat × Nat) : Prop :=
  Relation.ReflTransGen (stepFG m) p q

/-- The 3×3×1 mask holding the L-shaped single component
{(0,0,0), (1,0,0), (1,1,0)}. -/
def maskL : Vol :=
  ⟨3, 3, 1, fun i j k =>
    if k = 0 ∧ ((i = 0 ∧ j = 0) ∨ (i = 1 ∧ j = 0) ∨ (i = 1 ∧ j = 1)) then 65535 else 0⟩

/-- A 2×2×1 all-background mask. -/
def zeroVol : Vol := ⟨2, 2, 1, fun _ _ _ => 0⟩

/-- A 1×1×1 mask with a single foreground voxel. -/
def mask1 : Vol := ⟨1, 1, 1, fun _ _ _ => 65535⟩

/-- Generic shape of the two refinement loops: a fold that overwrites the
accumulator with the second pair component whenever the condition holds ends
at the last qualifying pair (or the initial value). -/
theorem foldl_advance_eq_lastSnd (c : Nat × Nat → Prop) [DecidablePred c]
    (l : List (Nat × Nat)) (init : Nat) :
    l.foldl (fun acc p => if c p then p.2 else acc) init
      = lastSnd (l.filter (fun p => decide (c p))) init := by
  induction l generalizing init with
  | nil => rfl
  | cons a t ih =>
    rw [List.foldl_cons]
    by_cases hc : c a
    · rw [if_pos hc, ih, List.filter_cons_of_pos (by simpa using hc)]
      cases hft : t.filter (fun p => decide (c p)) with
      | nil => simp [lastSnd]
      | cons b u =>
        cases h2 : (b :: u).getLast? with
        | none => simp at h2
        | some x => simp [lastSnd, List.getLast?_cons_cons, h2]
    · rw [if_neg hc, ih, List.filter_cons_of_neg (by simpa using hc)]

/-- C1: For the aggregated curve [40, 30, 35, 50, 10, 20] the claim specifies
the dip index set {1, 4} (the interior strict local minima) and selection of
the mask at index 1; evaluating the embedded scanner shows the code stores the
off-by-one set {0, 3} (`np.where` indexes the sliced array) and selects the
mask at index 0. -/
theorem c1_dips_are_off_by_one :
    find_all_minima [40, 30, 35, 50, 10, 20] = [0, 3] ∧
    select_bones [40, 30, 35, 50, 10, 20] ([0, 1, 2, 3, 4, 5] : List Nat) = Except.ok 0 ∧
    ([0, 3] : List Nat) ≠ [1, 4] :=
  ⟨by decide, rfl, by decide⟩

/-- C2 counterexample: the component-count curve length is not invariant to
the number of parallel workers: with resolution 10 (36 candidates), one worker
dispatches 36 candidates but five workers dispatch only 35 (chunk-partition
truncation), so the curves differ. -/
theorem c2_length_depends_on_worker_count :
    (component_curve (fun x => x) 10 1).length = 36 ∧
    (component_curve (fun x => x) 10 5).length = 35 ∧ (36 : Nat) ≠ 35 := by
  decide

/-- Each task chunk is an arithmetic progression of length `d`. -/
theorem arange_chunk (start d step : Nat) (h : 0 < step) :
    arange start (start + d * step) step = List.range' start d step := by
  unfold arange
  congr 1
  have h1 : start + d * step - start + step - 1 = step * d + (step - 1) := by
    have : start + d * step - start = d * step := by omega
    rw [this]; ring_nf; omega
  rw [h1, Nat.mul_add_div h, Nat.div_eq_of_lt (by omega)]
  omega

/-- Concatenating the `N` chunks in worker order yields one arithmetic
progression of `N * d` candidates. -/
theorem chunks_flatten (res d : Nat) (h : 0 < res) (N : Nat) :
    ((List.range N).map
        (fun r => arange (150 + r * d * res) (150 + r * d * res + d * res) res)).flatten
      = List.range' 150 (N * d) res := by
  induction N with
  | zero => simp
  | succ n ih =>
    rw [List.range_succ, List.map_append, List.flatten_append]
    rw [ih]
    simp only [List.map_cons, List.map_nil, List.flatten_cons, List.flatten_nil,
      List.append_nil]
    rw [arange_chunk _ _ _ h]
    have hs : 150 + n * d * res = 150 + res * (n * d) := by ring
    rw [hs, List.range'_append]
    congr 1
    ring

/-- C2 (amended): for a fixed worker count `N`, the aggregated curve equals
the sequential map of the per-threshold component count over the dispatched
candidate prefix `150, 150+res, …` of length `N * (((514-150)/res)/N)`; in
particular its length is the number of candidates actually dispatched after
chunk-partition truncation, and entries at shared indices agree for all worker
counts — but the dispatched length itself varies with `N` when `N` does not
divide the candidate count. -/
theorem c2_curve_is_sequential_prefix (cnt : Nat → Nat) (res N : Nat) (h : 0 < res) :
    component_curve cnt res N
        = (List.range' 150 (N * (((514 - 150) / res) / N)) res).map cnt ∧
    (component_curve cnt res N).length = N * (((514 - 150) / res) / N) := by
  have hflat : component_curve cnt res N
      = (List.range' 150 (N * (((514 - 150) / res) / N)) res).map cnt := by
    unfold component_curve tasks_distribution
    rw [← List.map_flatten, chunks_flatten res _ h N]
  exact ⟨hflat, by rw [hflat]; simp⟩

/-- C2 witness: the amended claim evaluated at resolution 10 with 5 workers. -/
theorem c2_curve_witness :
    0 < 10 ∧
    (component_curve (fun x => x) 10 5
        = (List.range' 150 (5 * (((514 - 150) / 10) / 5)) 10).map (fun x => x) ∧
      (component_curve (fun x => x) 10 5).length = 5 * (((514 - 150) / 10) / 5)) :=
  ⟨by decide, c2_curve_is_sequential_prefix (fun x => x) 10 5 (by decide)⟩

/-- C3 counterexample: with upper-side candidates at slice positions [4, 3]
and density profile [0, 0, 0, 10, 100], the consecutive candidates' density
ratio (100/10) exceeds 1.5, yet the code does not advance the upper bound
(it compares the position ratio 4/3 ≤ 1.5): the code result differs from the
density-ratio reading of the claim. -/
theorem c3_compares_positions_not_densities :
    2 * ([0, 0, 0, 10, 100] : List Int).getD 4 0 > 3 * ([0, 0, 0, 10, 100] : List Int).getD 3 0 ∧
    refine_upper [4, 3] = 4 ∧
    refine_upper_by_density [0, 0, 0, 10, 100] [4, 3] = 3 ∧ (4 : Nat) ≠ 3 := by
  decide

/-- C3 (amended): the quantity compared against 1.5 in the stability
refinement is the ratio of the two candidates' slice positions (indices), not
their density values: the upper bound ends at the second element of the last
consecutive pair whose position ratio exceeds 1.5 (`2*a > 3*b`), the lower
bound at the second element of the last pair whose position ratio is below 1.5
(`2*a < 3*b`), defaulting to the first candidate; the density profile is not
consulted. -/
theorem c3_refinement_uses_position_ratio (ubs lbs : List Nat) :
    refine_upper ubs
        = lastSnd ((ubs.zip ubs.tail).filter (fun p => decide (2 * p.1 > 3 * p.2))) (ubs.headD 0) ∧
    refine_lower lbs
        = lastSnd ((lbs.zip lbs.tail).filter (fun p => decide (2 * p.1 < 3 * p.2))) (lbs.headD 0) :=
  ⟨foldl_advance_eq_lastSnd (fun p => 2 * p.1 > 3 * p.2) _ _,
   foldl_advance_eq_lastSnd (fun p => 2 * p.1 < 3 * p.2) _ _⟩

/-- C4: a voxel whose uint16 value is 65535 is kept as foreground by the
thresholding step of `SegmentationByTH` for the window (200, 1300) even though
it does not satisfy `low < v ≤ high`, contradicting the claimed (and
docstring) window semantics ("0 otherwise"). -/
theorem c4_sentinel_survives_window :
    thresholdVoxel 200 1300 65535 = MAX_VOXEL_VALUE ∧
    ¬((200 : Int) < 65535 ∧ (65535 : Int) ≤ 1300) := by
  decide

/-- C5: for the degenerate window (200, 200) (high ≤ low) on a volume whose
sample is 65535, `SegmentationByTH` returns a mask whose voxel is 65535 — not
the all-zero mask the claim (and the docstring "0 otherwise") requires. -/
theorem c5_degenerate_window_not_all_zero :
    (200 : Int) ≤ 200 ∧ (SegmentationByTH vol65535 200 200).data 0 0 0 = MAX_VOXEL_VALUE := by
  decide

/-- C6: on a component-count curve with no interior strict local minimum the
dip set is empty and the selection step of the scan fails with the
NoThresholdFound condition (the Python code raises at `self._dips[0]`) instead
of indexing past the end of the result list. -/
theorem c6_no_dip_scan_fails (cmps : List Nat) (imgs : List Nat)
    (h : ∀ i, i < cmps.length → 0 < i → i + 1 < cmps.length →
      ¬(cmps.getD i 0 < cmps.getD (i-1) 0 ∧ cmps.getD i 0 < cmps.getD (i+1) 0)) :
    select_bones cmps imgs = Except.error ScanErr.noThresholdFound := by
  have hd : find_all_minima cmps = [] := by
    unfold find_all_minima
    rw [List.filter_eq_nil_iff]
    intro j hj
    rw [List.mem_range] at hj
    have h1 := h (j+1) (by omega) (by omega) (by omega)
    simpa using h1
  unfold select_bones
  rw [hd]

/-- C6 witness: a strictly flat curve has no dip and the scan fails. -/
theorem c6_scan_failure_witness :
    (∀ i, i < ([5, 5, 5] : List Nat).length → 0 < i → i + 1 < ([5, 5, 5] : List Nat).length →
      ¬(([5, 5, 5] : List Nat).getD i 0 < ([5, 5, 5] : List Nat).getD (i-1) 0 ∧
        ([5, 5, 5] : List Nat).getD i 0 < ([5, 5, 5] : List Nat).getD (i+1) 0)) ∧
    select_bones [5, 5, 5] ([1, 2, 3] : List Nat) = Except.error ScanErr.noThresholdFound :=
  ⟨by decide, c6_no_dip_scan_fails _ _ (by decide)⟩

/-- C7: largest-component selection on an all-background mask fails with the
EmptyMaskError condition (the Python code raises at `np.argmax` of the empty
`np.bincount(labels.flat)[1:]`) instead of selecting an undefined label. -/
theorem c7_empty_mask_fails (m : Vol) (h : fg m = []) :
    get_Nlargest_component m = Except.error MaskErr.emptyMask := by
  unfold get_Nlargest_component
  rw [if_pos h]

/-- C7 witness: the all-zero 2×2×1 mask. -/
theorem c7_empty_mask_witness :
    fg zeroVol = [] ∧ get_Nlargest_component zeroVol = Except.error MaskErr.emptyMask :=
  ⟨by decide, c7_empty_mask_fails zeroVol (by decide)⟩

/-- C10: the thresholding step compares every sample only after the uint16
cast: the result depends on the sample only through its value modulo 2^16, a
negative sample `v` (with −65536 ≤ v < 0, e.g. after the slope/intercept
rescale) is treated as `v + 65536`, and any sample whose cast value is 65535
leaves the thresholding step as foreground-max regardless of the window. -/
theorem c10_uint16_cast_semantics (Imin Imax v : Int) :
    thresholdVoxel Imin Imax v = thresholdVoxel Imin Imax (v % 65536) ∧
    (-65536 ≤ v → v < 0 → thresholdVoxel Imin Imax v = thresholdVoxel Imin Imax (v + 65536)) ∧
    (v % 65536 = 65535 → thresholdVoxel Imin Imax v = MAX_VOXEL_VALUE) := by
  refine ⟨?_, fun _ _ => ?_, fun h => ?_⟩
  · unfold thresholdVoxel
    rw [Int.emod_emod_of_dvd v (dvd_refl 65536)]
  · unfold thresholdVoxel
    rw [Int.add_emod_self]
  · unfold thresholdVoxel
    rw [h]
    by_cases hc : (((65535 : Int).toNat : Int) ≤ Imax ∧ Imin < ((65535 : Int).toNat : Int))
    · simp [hc, MAX_VOXEL_VALUE]
    · simp [hc, MAX_VOXEL_VALUE]

/-- The plateau scan never moves left. -/
theorem plateauEndAux_ge (x : List Int) (v : Int) :
    ∀ fuel j, j ≤ plateauEndAux x v fuel j := by
  intro fuel
  induction fuel with
  | zero => intro j; exact Nat.le_refl j
  | succ n ih =>
    intro j
    simp only [plateauEndAux]
    by_cases hc : j < x.length - 1 ∧ x.getD j 0 = v
    · rw [if_pos hc]; exact Nat.le_trans (Nat.le_succ j) (ih (j+1))
    · rw [if_neg hc]

/-- The plateau scan never leaves the interior of the signal. -/
theorem plateauEndAux_le (x : List Int) (v : Int) :
    ∀ fuel j, j ≤ x.length - 1 → plateauEndAux x v fuel j ≤ x.length - 1 := by
  intro fuel
  induction fuel with
  | zero => intro j hj; exact hj
  | succ n ih =>
    intro j hj
    simp only [plateauEndAux]
    by_cases hc : j < x.length - 1 ∧ x.getD j 0 = v
    · rw [if_pos hc]; exact ih (j+1) (by omega)
    · rw [if_neg hc]; exact hj

/-- Every recorded local-maximum midpoint is a valid index of the signal. -/
theorem mem_localMaximaAux_lt (x : List Int) :
    ∀ fuel i p, p ∈ localMaximaAux x fuel i → p < x.length := by
  intro fuel
  induction fuel with
  | zero => intro i p hp; simp [localMaximaAux] at hp
  | succ n ih =>
    intro i p hp
    simp only [localMaximaAux] at hp
    by_cases h1 : i < x.length - 1
    · rw [if_pos h1] at hp
      by_cases h2 : x.getD (i-1) 0 < x.getD i 0
      · rw [if_pos h2] at hp
        by_cases h3 : x.getD (plateauEnd x (x.getD i 0) (i+1)) 0 < x.getD i 0
        · rw [if_pos h3] at hp
          rcases List.mem_cons.mp hp with hmid | hrec
          · have hge : i + 1 ≤ plateauEnd x (x.getD i 0) (i+1) :=
              plateauEndAux_ge x (x.getD i 0) x.length (i+1)
            have hle : plateauEnd x (x.getD i 0) (i+1) ≤ x.length - 1 :=
              plateauEndAux_le x (x.getD i 0) x.length (i+1) (by omega)
            subst hmid
            omega
          · exact ih _ p hrec
        · rw [if_neg h3] at hp; exact ih _ p hp
      · rw [if_neg h2] at hp; exact ih _ p hp
    · rw [if_neg h1] at hp; simp at hp

/-- Every index returned by the modelled `find_peaks` is a valid index. -/
theorem mem_find_peaks_lt (x : List Int) (dist q : Nat) (hq : q ∈ find_peaks x dist) :
    q < x.length := by
  simp only [find_peaks, List.mem_map, List.mem_filter, List.mem_range] at hq
  obtain ⟨j, ⟨hj, -⟩, rfl⟩ := hq
  have hmem : (localMaxima x).getD j 0 ∈ localMaxima x := by
    rw [List.getD_eq_getElem _ _ hj]
    exact List.getElem_mem hj
  exact mem_localMaximaAux_lt x x.length 1 _ hmem

/-- The head of a list, when present, is a member. -/
theorem head?_mem {α : Type} {l : List α} {a : α} (h : l.head? = some a) : a ∈ l := by
  cases l with
  | nil => simp at h
  | cons b t =>
    simp only [List.head?_cons, Option.some.injEq] at h
    rw [← h]
    exact List.mem_cons_self b t

/-- Membership in the descending-insert. -/
theorem mem_insertDesc {α : Type} (key : α → Int) (a x : α) :
    ∀ l : List α, x ∈ insertDesc key a l ↔ x = a ∨ x ∈ l := by
  intro l
  induction l with
  | nil => simp [insertDesc]
  | cons b bs ih =>
    simp only [insertDesc]
    by_cases hc : key a > key b
    · rw [if_pos hc]; simp [List.mem_cons]
    · rw [if_neg hc]
      simp only [List.mem_cons, ih]
      tauto

/-- The modelled argsort-based reordering is a permutation on membership. -/
theorem mem_sortDesc {α : Type} (key : α → Int) (x : α) (l : List α) :
    x ∈ sortDesc key l ↔ x ∈ l := by
  have main : ∀ (l' acc : List α),
      x ∈ l'.foldl (fun acc a => insertDesc key a acc) acc ↔ x ∈ l' ∨ x ∈ acc := by
    intro l'
    induction l' with
    | nil => intro acc; simp
    | cons a t ih =>
      intro acc
      rw [List.foldl_cons, ih, mem_insertDesc]
      simp only [List.mem_cons]
      tauto
  unfold sortDesc
  rw [main]
  simp

/-- The refinement loops are the identity on a one-element candidate array. -/
theorem refine_singleton (a : Nat) : refine_lower [a] = a ∧ refine_upper [a] = a :=
  ⟨rfl, rfl⟩

/-- C8: whenever the pelvis locator succeeds, the returned bounds satisfy
`lower_bound < upper_bound` (the two valleys bracket the main density peak)
and both are valid axial slice indices, i.e. lie in `[0, depth)` where `depth`
is the length of the density profile (one entry per axial slice). -/
theorem c8_bounds_within_volume (density : List Int) (lo hi : Nat)
    (h : find_suspected_pelvis_loc density = Except.ok (lo, hi)) :
    lo < hi ∧ lo < density.length ∧ hi < density.length := by
  simp only [find_suspected_pelvis_loc] at h
  split at h
  · simp at h
  · split at h
    · simp at h
    · split at h
      · rename_i lb ub hlb hub
        rw [Except.ok.injEq, Prod.mk.injEq] at h
        obtain ⟨hlo, hhi⟩ := h
        have hlo' : lo = lb := by rw [← hlo]; rfl
        have hhi' : hi = ub := by rw [← hhi]; rfl
        rw [hlo', hhi']
        have hlbf := List.mem_filter.mp (head?_mem hlb)
        have hubf := List.mem_filter.mp (head?_mem hub)
        have hlb1 : lb ∈ find_peaks (density.map (fun v => -v)) 200 :=
          (mem_sortDesc _ _ _).mp hlbf.1
        have hub1 : ub ∈ find_peaks (density.map (fun v => -v)) 200 :=
          (mem_sortDesc _ _ _).mp hubf.1
        have hlb2 := of_decide_eq_true hlbf.2
        have hub2 := of_decide_eq_true hubf.2
        have hlblen := mem_find_peaks_lt _ _ _ hlb1
        have hublen := mem_find_peaks_lt _ _ _ hub1
        rw [List.length_map] at hlblen hublen
        exact ⟨by omega, by omega, by omega⟩
      · simp at h

set_option maxRecDepth 100000 in
/-- C8 witness: the synthetic 220-slice density profile with peaks at 10 and
215 and valleys at 5 and 210 succeeds with bounds (5, 210). -/
theorem c8_bounds_witness :
    find_suspected_pelvis_loc demoProfile = Except.ok (5, 210) ∧
    (5 < 210 ∧ 5 < demoProfile.length ∧ 210 < demoProfile.length) :=
  ⟨rfl, c8_bounds_within_volume demoProfile 5 210 rfl⟩

/-- The grid enumeration has no duplicates. -/
theorem positions_nodup (m : Vol) : (positions m).Nodup := by
  unfold positions
  rw [List.nodup_flatMap]
  constructor
  · intro i _
    rw [List.nodup_flatMap]
    constructor
    · intro j _
      exact (List.nodup_range _).map (fun a b hab => by simpa using hab)
    · refine List.Pairwise.imp ?_ (List.pairwise_lt_range m.ny)
      intro a b hab x hxa hxb
      simp only [List.mem_map] at hxa hxb
      obtain ⟨ka, -, rfl⟩ := hxa
      obtain ⟨kb, -, hkb⟩ := hxb
      have : a = b := by
        have := congrArg (fun t : Nat × Nat × Nat => t.2.1) hkb
        simpa using this.symm
      omega
  · refine List.Pairwise.imp ?_ (List.pairwise_lt_range m.nx)
    intro a b hab x hxa hxb
    simp only [List.mem_flatMap, List.mem_map] at hxa hxb
    obtain ⟨ja, -, ka, -, rfl⟩ := hxa
    obtain ⟨jb, -, kb, -, hkb⟩ := hxb
    have : a = b := by
      have := congrArg (fun t : Nat × Nat × Nat => t.1) hkb
      simpa using this.symm
    omega

/-- The foreground enumeration has no duplicates. -/
theorem fg_nodup (m : Vol) : (fg m).Nodup := (positions_nodup m).filter _

/-- Saturation only adds positions. -/
theorem subset_expand (m : Vol) (s : List (Nat × Nat × Nat)) : s ⊆ expand m s :=
  List.subset_append_left _ _

/-- Saturation only adds foreground positions. -/
theorem expand_mem (m : Vol) (s : List (Nat × Nat × Nat)) (x : Nat × Nat × Nat)
    (hx : x ∈ expand m s) : x ∈ s ∨ x ∈ fg m := by
  rcases List.mem_append.mp hx with h | h
  · exact Or.inl h
  · exact Or.inr (List.mem_of_mem_filter h)

/-- Iterated saturation from a foreground seed set stays in the foreground. -/
theorem iterExpand_subset_fg (m : Vol) :
    ∀ (n : Nat) (s : List (Nat × Nat × Nat)), (∀ x ∈ s, x ∈ fg m) →
      ∀ x ∈ iterExpand m n s, x ∈ fg m := by
  intro n
  induction n with
  | zero => intro s hs x hx; exact hs x hx
  | succ k ih =>
    intro s hs x hx
    rcases expand_mem m _ x hx with h | h
    · exact ih s hs x h
    · exact h

/-- The seed set survives iterated saturation. -/
theorem subset_iterExpand (m : Vol) :
    ∀ (n : Nat) (s : List (Nat × Nat × Nat)), s ⊆ iterExpand m n s := by
  intro n
  induction n with
  | zero => intro s; exact fun x hx => hx
  | succ k ih =>
    intro s
    exact fun x hx => subset_expand m _ (ih s hx)

/-- Saturation preserves duplicate-freedom. -/
theorem expand_nodup (m : Vol) (s : List (Nat × Nat × Nat)) (hs : s.Nodup) :
    (expand m s).Nodup := by
  unfold expand
  rw [List.nodup_append]
  refine ⟨hs, (fg_nodup m).filter _, ?_⟩
  intro x hxs hxf
  have := List.mem_filter.mp hxf
  have hnot := this.2
  rw [Bool.and_eq_true] at hnot
  have := of_decide_eq_true hnot.1
  exact this hxs

/-- Iterated saturation preserves duplicate-freedom. -/
theorem iterExpand_nodup (m : Vol) :
    ∀ (n : Nat) (s : List (Nat × Nat × Nat)), s.Nodup → (iterExpand m n s).Nodup := by
  intro n
  induction n with
  | zero => intro s hs; exact hs
  | succ k ih => intro s hs; exact expand_nodup m _ (ih s hs)

/-- Adjacency is symmetric. -/
theorem Adj_symm {p q : Nat × Nat × Nat} (h : Adj p q) : Adj q p := by
  obtain ⟨hne, h1, h2, h3⟩ := h
  refine ⟨fun hh => hne hh.symm, ?_, ?_, ?_⟩ <;>
    simp only [natDist] at * <;> omega

/-- Foreground reachability is symmetric. -/
theorem reach_symm (m : Vol) {p q : Nat × Nat × Nat} (h : Reach m p q) : Reach m q p := by
  have hsym : Symmetric (stepFG m) := by
    intro a b hab
    exact ⟨hab.2.1, hab.1, Adj_symm hab.2.2⟩
  exact Relation.ReflTransGen.symmetric hsym h

/-- Soundness of saturation: everything reached is graph-reachable from the
seed. -/
theorem reach_of_mem_iterExpand (m : Vol) (p : Nat × Nat × Nat) :
    ∀ (n : Nat) (s : List (Nat × Nat × Nat)),
      (∀ x ∈ s, x ∈ fg m ∧ Reach m p x) →
      ∀ q ∈ iterExpand m n s, q ∈ fg m ∧ Reach m p q := by
  intro n
  induction n with
  | zero => intro s hs q hq; exact hs q hq
  | succ k ih =>
    intro s hs q hq
    rcases List.mem_append.mp hq with h | h
    · exact ih s hs q h
    · have hf := List.mem_filter.mp h
      have hcond := hf.2
      rw [Bool.and_eq_true] at hcond
      obtain ⟨x, hxs, hadj⟩ := List.any_eq_true.mp hcond.2
      have hx := ih s hs x hxs
      refine ⟨hf.1, Relation.ReflTransGen.tail hx.2 ?_⟩
      exact ⟨hx.1, hf.1, of_decide_eq_true hadj⟩

/-- A saturation fixpoint is closed under foreground reachability. -/
theorem mem_of_reach_of_fixpoint (m : Vol) (s : List (Nat × Nat × Nat))
    (hfix : expand m s = s) (p q : Nat × Nat × Nat) (hp : p ∈ s) (hr : Reach m p q) :
    q ∈ s := by
  induction hr with
  | refl => exact hp
  | tail hxy hstep ih =>
    rename_i x y
    by_contra hq
    have hmemf : y ∈ (fg m).filter
        (fun q => decide (q ∉ s) && s.any (fun p => decide (Adj p q))) := by
      refine List.mem_filter.mpr ⟨hstep.2.1, ?_⟩
      rw [Bool.and_eq_true]
      exact ⟨decide_eq_true hq, List.any_eq_true.mpr ⟨x, ih, decide_eq_true hstep.2.2⟩⟩
    have hlen := congrArg List.length hfix
    rw [expand, List.length_append] at hlen
    have : ((fg m).filter
        (fun q => decide (q ∉ s) && s.any (fun p => decide (Adj p q)))).length = 0 := by
      omega
    rw [List.length_eq_zero] at this
    rw [this] at hmemf
    exact (List.not_mem_nil y) hmemf

/-- A duplicate-free list contained in another list is no longer than it. -/
theorem nodup_subset_length_le {α : Type} [DecidableEq α] {l₁ l₂ : List α}
    (h1 : l₁.Nodup) (h2 : ∀ x ∈ l₁, x ∈ l₂) : l₁.length ≤ l₂.length := by
  calc l₁.length = l₁.toFinset.card := (List.toFinset_card_of_nodup h1).symm
    _ ≤ l₂.toFinset.card := by
        apply Finset.card_le_card
        intro x hx
        rw [List.mem_toFinset] at hx ⊢
        exact h2 x hx
    _ ≤ l₂.length := l₂.toFinset_card_le

/-- Saturation grows strictly until it reaches a fixpoint. -/
theorem iterExpand_fix_or_grows (m : Vol) (p : Nat × Nat × Nat) :
    ∀ n : Nat, expand m (iterExpand m n [p]) = iterExpand m n [p] ∨
      n + 1 ≤ (iterExpand m n [p]).length := by
  intro n
  induction n with
  | zero => right; simp [iterExpand]
  | succ k ih =>
    rcases ih with hfix | hlen
    · left
      show expand m (expand m (iterExpand m k [p])) = expand m (iterExpand m k [p])
      rw [hfix, hfix]
    · by_cases hf : (fg m).filter
        (fun q => decide (q ∉ iterExpand m k [p]) &&
          (iterExpand m k [p]).any (fun x => decide (Adj x q))) = []
      · left
        have hfix : expand m (iterExpand m k [p]) = iterExpand m k [p] := by
          rw [expand, hf, List.append_nil]
        show expand m (expand m (iterExpand m k [p])) = expand m (iterExpand m k [p])
        rw [hfix, hfix]
      · right
        show k + 1 + 1 ≤ (expand m (iterExpand m k [p])).length
        rw [expand, List.length_append]
        have : 0 < ((fg m).filter
            (fun q => decide (q ∉ iterExpand m k [p]) &&
              (iterExpand m k [p]).any (fun x => decide (Adj x q)))).length := by
          rcases Nat.eq_zero_or_pos ((fg m).filter _).length with h0 | hpos
          · rw [List.length_eq_zero] at h0; exact absurd h0 hf
          · exact hpos
        omega

/-- The component closure is a saturation fixpoint. -/
theorem expand_comp_closure (m : Vol) (p : Nat × Nat × Nat) (hp : p ∈ fg m) :
    expand m (comp_closure m p) = comp_closure m p := by
  rcases iterExpand_fix_or_grows m p (fg m).length with hfix | hlen
  · exact hfix
  · exfalso
    have hnodup : (iterExpand m (fg m).length [p]).Nodup :=
      iterExpand_nodup m _ [p] (List.nodup_singleton p)
    have hsub : ∀ x ∈ iterExpand m (fg m).length [p], x ∈ fg m :=
      iterExpand_subset_fg m _ [p] (by intro x hx; rw [List.mem_singleton] at hx; rw [hx]; exact hp)
    have := nodup_subset_length_le hnodup hsub
    omega

/-- Membership in the component closure is exactly foreground reachability. -/
theorem mem_comp_closure_iff (m : Vol) (p : Nat × Nat × Nat) (hp : p ∈ fg m)
    (q : Nat × Nat × Nat) : q ∈ comp_closure m p ↔ Reach m p q := by
  constructor
  · intro hq
    exact (reach_of_mem_iterExpand m p _ [p]
      (by intro x hx; rw [List.mem_singleton] at hx; rw [hx]
          exact ⟨hp, Relation.ReflTransGen.refl⟩) q hq).2
  · intro hr
    refine mem_of_reach_of_fixpoint m _ (expand_comp_closure m p hp) p q ?_ hr
    exact subset_iterExpand m _ [p] (List.mem_singleton_self p)

/-- The component closure of a foreground voxel contains only foreground. -/
theorem comp_closure_subset_fg (m : Vol) (p : Nat × Nat × Nat) (hp : p ∈ fg m) :
    ∀ x ∈ comp_closure m p, x ∈ fg m :=
  iterExpand_subset_fg m _ [p]
    (by intro x hx; rw [List.mem_singleton] at hx; rw [hx]; exact hp)

/-- The head of a nonempty list is a member. -/
theorem headD_mem {α : Type} {l : List α} (h : l ≠ []) (d : α) : l.headD d ∈ l := by
  cases l with
  | nil => exact absurd rfl h
  | cons a t => exact List.mem_cons_self a t

/-- The representative of a foreground voxel is a foreground voxel of its own
component. -/
theorem rep_mem (m : Vol) (p : Nat × Nat × Nat) (hp : p ∈ fg m) :
    rep m p ∈ fg m ∧ rep m p ∈ comp_closure m p := by
  have hpin : p ∈ (fg m).filter (fun r => decide (r ∈ comp_closure m p)) := by
    refine List.mem_filter.mpr ⟨hp, decide_eq_true ?_⟩
    exact subset_iterExpand m _ [p] (List.mem_singleton_self p)
  have hne : (fg m).filter (fun r => decide (r ∈ comp_closure m p)) ≠ [] :=
    List.ne_nil_of_mem hpin
  have := List.mem_filter.mp (headD_mem hne p)
  exact ⟨this.1, of_decide_eq_true this.2⟩

/-- Voxels with the same component (as a set) share a representative. -/
theorem rep_eq_of_closure_eq (m : Vol) (p q : Nat × Nat × Nat) (_hp : p ∈ fg m)
    (hq : q ∈ fg m) (h : ∀ x, x ∈ comp_closure m p ↔ x ∈ comp_closure m q) :
    rep m p = rep m q := by
  unfold rep
  have hcong : ∀ x ∈ fg m,
      (decide (x ∈ comp_closure m p)) = (decide (x ∈ comp_closure m q)) := by
    intro x _
    rw [decide_eq_decide]
    exact h x
  rw [List.filter_congr hcong]
  have hqin : q ∈ (fg m).filter (fun r => decide (r ∈ comp_closure m q)) :=
    List.mem_filter.mpr
      ⟨hq, decide_eq_true (subset_iterExpand m _ [q] (List.mem_singleton_self q))⟩
  cases hfil : (fg m).filter (fun r => decide (r ∈ comp_closure m q)) with
  | nil => rw [hfil] at hqin; exact absurd hqin (List.not_mem_nil q)
  | cons a t => rfl

/-- A constant nonempty list dedups to a singleton. -/
theorem dedup_of_all_eq {α : Type} [DecidableEq α] (r : α) :
    ∀ l : List α, l ≠ [] → (∀ x ∈ l, x = r) → l.dedup = [r] := by
  intro l
  induction l with
  | nil => intro h _; exact absurd rfl h
  | cons a t ih =>
    intro _ hall
    have ha : a = r := hall a (List.mem_cons_self a t)
    cases t with
    | nil => rw [ha]; rfl
    | cons b u =>
      have hb : b = r := hall b (by simp)
      have hmem : a ∈ b :: u := by rw [ha, hb]; exact List.mem_cons_self r u
      rw [List.dedup_cons_of_mem hmem]
      exact ih (by simp) (fun x hx => hall x (List.mem_cons_of_mem a hx))

/-- The `indexOf` of the head element (stated for any lawful `BEq`). -/
theorem indexOf_cons_self' {α : Type} [BEq α] [LawfulBEq α] (a : α) (l : List α) :
    List.indexOf a (a :: l) = 0 := by
  simp [List.indexOf, List.findIdx_cons]

/-- Unfolding `indexOf` over a cons cell (stated for any lawful `BEq`). -/
theorem indexOf_cons' {α : Type} [BEq α] [LawfulBEq α] (c a : α) (t : List α) :
    List.indexOf a (c :: t) = bif c == a then 0 else List.indexOf a t + 1 := by
  simp [List.indexOf, List.findIdx_cons]

/-- Two members of a list with the same `indexOf` are equal. -/
theorem indexOf_inj' {α : Type} [BEq α] [LawfulBEq α] :
    ∀ (l : List α) (a b : α), a ∈ l → b ∈ l → l.indexOf a = l.indexOf b → a = b := by
  intro l
  induction l with
  | nil => intro a b ha _ _; exact absurd ha (List.not_mem_nil a)
  | cons c t ih =>
    intro a b ha hb h
    rw [indexOf_cons' c a, indexOf_cons' c b] at h
    by_cases hca : c = a
    · by_cases hcb : c = b
      · rw [← hca, ← hcb]
      · rw [beq_iff_eq.mpr hca, beq_eq_false_iff_ne.mpr hcb] at h
        simp at h
    · by_cases hcb : c = b
      · rw [beq_eq_false_iff_ne.mpr hca, beq_iff_eq.mpr hcb] at h
        simp at h
      · rw [beq_eq_false_iff_ne.mpr hca, beq_eq_false_iff_ne.mpr hcb] at h
        simp only [Bool.cond_false] at h
        refine ih a b ?_ ?_ (by omega)
        · exact (List.mem_cons.mp ha).resolve_left (fun e => hca e.symm)
        · exact (List.mem_cons.mp hb).resolve_left (fun e => hcb e.symm)

/-- C9 counterexample: for the single-component L-shaped mask
{(0,0,0), (1,0,0), (1,1,0)} in a 3×3×1 grid, `get_Nlargest_component` (whose
contract `largest_component` ends with a morphological closing) returns a mask
with 4 foreground voxels — the closing fills the concavity — exceeding the 3
foreground voxels of the input, so the claimed inequality
`count(largest_component(M)) ≤ count(M)` fails. -/
theorem c9_closing_exceeds_total :
    countFG maskL = 3 ∧
    get_Nlargest_component maskL = Except.ok (closing (largest_mask maskL)) ∧
    countFG (closing (largest_mask maskL)) = 4 ∧ ¬(4 ≤ 3) :=
  ⟨by decide, rfl, by decide, by decide⟩

/-- C9 (amended): for every mask with at least one foreground voxel, the voxel
count of the selected largest component — counted when it is selected, before
the final morphological closing pass of `largest_component` — is at most the
total foreground count, with equality exactly when the mask has one
26-connected component (all foreground voxels mutually reachable). -/
theorem c9_largest_le_total_iff_one_component (m : Vol) (h : fg m ≠ []) :
    labelCount m (selectedLabel m) ≤ countFG m ∧
    (labelCount m (selectedLabel m) = countFG m ↔ oneComponent m) := by
  refine ⟨List.length_filter_le _ _, ?_, ?_⟩
  · -- equality → one component
    intro heq
    have hfil : (fg m).filter (fun p => decide (labelOf m p = selectedLabel m)) = fg m := by
      unfold labelCount countFG at heq
      exact (List.filter_sublist _).eq_of_length heq
    have hall : ∀ p ∈ fg m, labelOf m p = selectedLabel m := by
      intro p hp
      have hmem : p ∈ (fg m).filter (fun p => decide (labelOf m p = selectedLabel m)) := by
        rw [hfil]; exact hp
      exact of_decide_eq_true (List.mem_filter.mp hmem).2
    intro p hp q hq
    have h1 : labelOf m p = labelOf m q := by rw [hall p hp, hall q hq]
    unfold labelOf at h1
    rw [if_pos hp, if_pos hq] at h1
    have hpr : rep m p ∈ reps m := by
      unfold reps
      rw [List.mem_dedup]
      exact List.mem_map_of_mem _ hp
    have hqr : rep m q ∈ reps m := by
      unfold reps
      rw [List.mem_dedup]
      exact List.mem_map_of_mem _ hq
    have hrep : rep m p = rep m q := by
      have hidx : (reps m).indexOf (rep m p) = (reps m).indexOf (rep m q) := by omega
      exact indexOf_inj' (reps m) _ _ hpr hqr hidx
    obtain ⟨hrfg, hrclo⟩ := rep_mem m p hp
    obtain ⟨-, hrcloq⟩ := rep_mem m q hq
    have hreach_pr : Reach m p (rep m p) := (mem_comp_closure_iff m p hp _).mp hrclo
    have hreach_qr : Reach m q (rep m q) := (mem_comp_closure_iff m q hq _).mp hrcloq
    have hreach_pq : Reach m p q := by
      refine Relation.ReflTransGen.trans hreach_pr ?_
      rw [hrep]
      exact reach_symm m hreach_qr
    exact (mem_comp_closure_iff m p hp q).mpr hreach_pq
  · -- one component → equality
    intro hone
    obtain ⟨p0, hp0⟩ : ∃ p0, p0 ∈ fg m := List.exists_mem_of_ne_nil _ h
    have hrepeq : ∀ p ∈ fg m, rep m p = rep m p0 := by
      intro p hp
      refine rep_eq_of_closure_eq m p p0 hp hp0 ?_
      intro x
      constructor
      · intro hx
        exact hone p0 hp0 x (comp_closure_subset_fg m p hp x hx)
      · intro hx
        exact hone p hp x (comp_closure_subset_fg m p0 hp0 x hx)
    have hreps : reps m = [rep m p0] := by
      unfold reps
      refine dedup_of_all_eq _ _ ?_ ?_
      · intro hmap
        rw [List.map_eq_nil_iff] at hmap
        exact h hmap
      · intro x hx
        obtain ⟨p, hp, rfl⟩ := List.mem_map.mp hx
        exact hrepeq p hp
    have hlab : ∀ p ∈ fg m, labelOf m p = 1 := by
      intro p hp
      unfold labelOf
      rw [if_pos hp, hreps, hrepeq p hp, indexOf_cons_self']
    have hsel : selectedLabel m = 1 := by
      unfold selectedLabel bincountTail
      rw [hreps]
      have h1 : List.map (fun j => labelCount m (j+1)) (List.range ([rep m p0].length))
          = [labelCount m 1] := by
        rw [List.length_singleton, show List.range 1 = [0] from by decide]
        rfl
      rw [h1, List.foldr_cons, List.foldr_nil, Nat.max_zero, indexOf_cons_self']
    rw [hsel]
    unfold labelCount countFG
    rw [List.filter_congr (fun p hp => decide_eq_true (hlab p hp)), List.filter_true]

set_option maxRecDepth 10000 in
/-- C9 witness: the 1×1×1 single-voxel mask has one component and its largest
component count equals its total count. -/
theorem c9_amended_witness :
    fg mask1 ≠ [] ∧
    (labelCount mask1 (selectedLabel mask1) ≤ countFG mask1 ∧
      (labelCount mask1 (selectedLabel mask1) = countFG mask1 ↔ oneComponent mask1)) :=
  ⟨by decide, c9_largest_le_total_iff_one_component mask1 (by decide)⟩

/-- C10 witness: the sample −1 casts to 65535 and is foreground for the
window (200, 1300). -/
theorem c10_cast_witness :
    ((-65536 : Int) ≤ -1 ∧ (-1 : Int) < 0 ∧ (-1 : Int) % 65536 = 65535) ∧
    thresholdVoxel 200 1300 (-1) = thresholdVoxel 200 1300 ((-1) + 65536) ∧
    thresholdVoxel 200 1300 (-1) = MAX_VOXEL_VALUE :=
  ⟨by decide,
   (c10_uint16_cast_semantics 200 1300 (-1)).2.1 (by decide) (by decide),
   (c10_uint16_cast_semantics 200 1300 (-1)).2.2 (by decide)⟩
